import Mathlib

/-!
Shallow embedding of the `waroncars` object tracker (`kalman.py`):
a constant-velocity Kalman filter (`KalmanTracker`), per-object track state
(`Track`), and the multi-object registry (`BoxTracker`) with greedy
box-overlap association and timeout eviction.

Machine floats are modelled by exact rationals; numpy's `linalg.solve`
failure on a singular matrix is modelled by an `Option`/`Except` result.
-/

open Matrix

namespace WarOnCars

/-- Measurement vector, length `ndim`. -/
abbrev Vec (n : ℕ) := Fin n → ℚ

/-- State vector, length `2*ndim` (position components then velocity components). -/
abbrev Vec2 (n : ℕ) := Fin n ⊕ Fin n → ℚ

/-- `(2*ndim) × (2*ndim)` covariance matrix. -/
abbrev Mat2 (n : ℕ) := Matrix (Fin n ⊕ Fin n) (Fin n ⊕ Fin n) ℚ

/-- Computable inverse of a rational matrix, `det⁻¹ • adjugate`.
Agrees with Mathlib's noncomputable `Matrix.inv` (see `qInv_eq_inv`). -/
def qInv {m : Type*} [Fintype m] [DecidableEq m] (A : Matrix m m ℚ) : Matrix m m ℚ :=
  A.det⁻¹ • A.adjugate

theorem qInv_eq_inv {m : Type*} [Fintype m] [DecidableEq m] (A : Matrix m m ℚ) :
    qInv A = A⁻¹ := by
  rw [qInv, Matrix.inv_def, Ring.inverse_eq_inv']

/-- `KalmanTracker(ndim, σz, σv)`: the per-dimension measurement-noise and
velocity-prior standard deviations fixed at construction. -/
structure Kalman (n : ℕ) where
  σz : Vec n
  σv : Vec n

namespace Kalman

variable {n : ℕ} (km : Kalman n)

/-- `self.H = np.block([I, Z])`: observes the position components only. -/
def H (km : Kalman n) : Matrix (Fin n) (Fin n ⊕ Fin n) ℚ := fromColumns 1 0

/-- `self.R = np.diag(np.square(σz))`: measurement-noise covariance. -/
def R : Matrix (Fin n) (Fin n) ℚ := Matrix.diagonal fun i => km.σz i ^ 2

/-- `Pv = np.diag(np.square(σv))`: velocity-prior covariance. -/
def Pv : Matrix (Fin n) (Fin n) ℚ := Matrix.diagonal fun i => km.σv i ^ 2

/-- `self.P0 = np.block([[R, Z], [Z, Pv]])`: initial covariance. -/
def P0 : Mat2 n := fromBlocks km.R 0 0 km.Pv

/-- The state-transition matrix `F = np.block([[I, dt*I], [Z, I]])`
built inside `predict`. -/
def F (km : Kalman n) (dt : ℚ) : Mat2 n := fromBlocks 1 (dt • 1) 0 1

/-- `KalmanTracker.start(z)`: state `[z, 0]` with covariance `P0`. -/
def start (z : Vec n) : Vec2 n × Mat2 n :=
  (Sum.elim z fun _ => 0, km.P0)

/-- `KalmanTracker.predict(x, P, dt)`: `x1 = F x`, `P1 = F P Fᵀ`. -/
def predict (x : Vec2 n) (P : Mat2 n) (dt : ℚ) : Vec2 n × Mat2 n :=
  (km.F dt *ᵥ x, km.F dt * P * (km.F dt)ᵀ)

/-- `KalmanTracker.update(x, P, z, dt)`: predict, then fuse measurement `z`.
`np.linalg.solve(A, B.T)` raises on singular `A`; modelled by `none` when
`A.det = 0` (exact arithmetic). -/
def update (x : Vec2 n) (P : Mat2 n) (z : Vec n) (dt : ℚ) :
    Option (Vec2 n × Mat2 n) :=
  let xP1 := km.predict x P dt
  let x1 := xP1.1
  let P1 := xP1.2
  let A := km.H * P1 * km.Hᵀ + km.R
  let B := P1 * km.Hᵀ
  if A.det = 0 then none
  else
    let K := (qInv A * Bᵀ)ᵀ
    let G := (1 : Mat2 n) - K * km.H
    some (G *ᵥ x1 + K *ᵥ z, G * P1)

end Kalman

/-!  ### Box geometry (`box_area`, `box_overlap`)  -/

/-- A box given by its edges `(l, t, r, b)`. -/
abbrev Box4 := ℚ × ℚ × ℚ × ℚ

/-- `box_area(l, t, r, b) = max(0, r-l) * max(0, b-t)`. -/
def box_area (l t r b : ℚ) : ℚ :=
  max 0 (r - l) * max 0 (b - t)

/-- `box_overlap(box1, box2) = 1 - intersection / max(area1, area2)`
(intersection-over-max, not intersection-over-union).  Over ℚ, `0 / 0 = 0`,
so two degenerate boxes get cost `1`. -/
def box_overlap (box1 box2 : Box4) : ℚ :=
  let l1 := box1.1; let t1 := box1.2.1; let r1 := box1.2.2.1; let b1 := box1.2.2.2
  let l2 := box2.1; let t2 := box2.2.1; let r2 := box2.2.2.1; let b2 := box2.2.2.2
  let lx := max l1 l2
  let tx := max t1 t2
  let rx := min r1 r2
  let bx := min b1 b2
  let a1 := box_area l1 t1 r1 b1
  let a2 := box_area l2 t2 r2 b2
  let ax := box_area lx tx rx bx
  let sim := ax / max a1 a2
  1 - sim

/-!  ### Bounded history (`collections.deque` with `maxlen`)  -/

/-- `deque(xs, cap)` keeps the last `cap` elements of `xs`. -/
def dequeMk {α : Type*} (cap : ℕ) (xs : List α) : List α :=
  xs.drop (xs.length - cap)

/-- `deque.append` with `maxlen = cap`: append on the right, dropping from
the left down to capacity. -/
def dequeAppend {α : Type*} (cap : ℕ) (xs : List α) (x : α) : List α :=
  dequeMk cap (xs ++ [x])

/-!  ### Track  -/

/-- One history sample `(t, z, x, P)` as appended by `Track`. -/
abbrev HistEntry (n : ℕ) := ℚ × Vec n × Vec2 n × Mat2 n

/-- `Track`: label `l`, last-update time `t`, current state `(x, P)`,
bounded history, plus the shared filter and the history capacity
(`length` argument of `Track.__init__`). -/
structure Track (n : ℕ) where
  kalman : Kalman n
  cap : ℕ
  l : ℕ
  t : ℚ
  x : Vec2 n
  P : Mat2 n
  hist : List (HistEntry n)

/-- `Track.__init__(kalman, length, l, t, z)`. -/
def mkTrack {n : ℕ} (km : Kalman n) (cap : ℕ) (l : ℕ) (t : ℚ) (z : Vec n) :
    Track n :=
  let xP := km.start z
  { kalman := km, cap := cap, l := l, t := t, x := xP.1, P := xP.2
    hist := dequeMk cap [(t, z, xP.1, xP.2)] }

namespace Track

variable {n : ℕ}

/-- `Track.predict(t)`: read-only prediction to time `t`. -/
def predictTo (tr : Track n) (t : ℚ) : Vec2 n × Mat2 n :=
  tr.kalman.predict tr.x tr.P (t - tr.t)

/-- `Track.update(t, z)` with Python's mutation order made explicit:
`self.t = t` happens *before* the Kalman solve, so on a solve failure the
returned track already carries the new timestamp (`Bool` = success). -/
def updateRun (tr : Track n) (t : ℚ) (z : Vec n) : Track n × Bool :=
  match tr.kalman.update tr.x tr.P z (t - tr.t) with
  | none => ({ tr with t := t }, false)
  | some xP =>
    ({ tr with
        t := t, x := xP.1, P := xP.2
        hist := dequeAppend tr.cap tr.hist (t, z, xP.1, xP.2) }, true)

end Track

/-!  ### Greedy association (the match loop of `BoxTracker.update`)  -/

/-- A candidate `(detection index, track id, cost)` triple. -/
abbrev Triple := ℕ × ℕ × ℚ

/-- Python's `min(errs, key=itemgetter(2))`: the first element with minimal
third component (`none` on an empty list, where Python raises). -/
def minBy2 : List Triple → Option Triple
  | [] => none
  | x :: xs => some (xs.foldl (fun b a => if a.2.2 < b.2.2 then a else b) x)

/-- Discard every triple sharing the detection index or the track id of `m`
(`k1 != k and j1 != j`); note this also discards `m` itself. -/
def dropShared (m : Triple) (errs : List Triple) : List Triple :=
  errs.filter fun x => x.1 ≠ m.1 ∧ x.2.1 ≠ m.2.1

/-- The source's match loop: `for _ in range(len(errs))`: take the min,
commit it, filter, break when nothing remains. -/
def matchLoop : ℕ → List Triple → List Triple → List Triple
  | 0, _, acc => acc
  | fuel + 1, errs, acc =>
    match minBy2 errs with
    | none => acc
    | some m =>
      let errs1 := dropShared m errs
      if errs1.isEmpty then acc ++ [m] else matchLoop fuel errs1 (acc ++ [m])

/-- The whole "unravel match in decreasing order of similarity" block. -/
def greedyMatch (errs : List Triple) : List Triple :=
  matchLoop errs.length errs []

/-- Fueled form of the greedy recursion "commit the first minimal triple,
discard everything sharing its detection index or track id, repeat";
`greedyMatch` is proved equal to it. -/
def gmatch : ℕ → List Triple → List Triple
  | 0, _ => []
  | fuel + 1, errs =>
    match minBy2 errs with
    | none => []
    | some m => m :: gmatch fuel (dropShared m errs)

/-!  ### BoxTracker (the registry)  -/

/-- `kalman_args`: `ndim = 4`, `σz = 0.05`, `σv = 0.5` per dimension. -/
def kalmanArgs : Kalman 4 :=
  { σz := fun _ => 1 / 20, σv := fun _ => 1 / 2 }

/-- A detection: `(label, coords)`, coords being the length-4 measurement
`[l, t, r, b]`. -/
abbrev Det := ℕ × Vec 4

/-- The measurement 4-vector viewed as box edges. -/
def toBox (z : Vec 4) : Box4 := (z 0, z 1, z 2, z 3)

/-- `x1[:4]`: the position components of a predicted state as box edges. -/
def headBox (x : Vec2 4) : Box4 :=
  (x (Sum.inl 0), x (Sum.inl 1), x (Sum.inl 2), x (Sum.inl 3))

/-- `BoxTracker` state: configuration plus the id counter and the
identifier → Track mapping (insertion-ordered, like a Python dict). -/
structure St where
  timeout : ℚ
  cutoff : ℚ
  length : ℕ
  kalman : Kalman 4
  nextid : ℕ
  tracks : List (ℕ × Track 4)

/-- `BoxTracker.__init__(timeout, cutoff, length)` (which calls `reset`). -/
def mkBoxTracker (timeout cutoff : ℚ) (length : ℕ) : St :=
  { timeout := timeout, cutoff := cutoff, length := length
    kalman := kalmanArgs, nextid := 0, tracks := [] }

namespace St

/-- `BoxTracker.reset`. -/
def reset (st : St) : St :=
  { st with nextid := 0, tracks := [] }

/-- `BoxTracker.add(l, t, z)`: returns the assigned id and the new state. -/
def add (st : St) (l : ℕ) (t : ℚ) (z : Vec 4) : ℕ × St :=
  (st.nextid,
   { st with
      nextid := st.nextid + 1
      tracks := st.tracks ++ [(st.nextid, mkTrack st.kalman st.length l t z)] })

/-- `BoxTracker.pop(i)`: `dict.pop`, which raises `KeyError` when absent
(modelled by `none`; the dict is unchanged in that case). -/
def pop (st : St) (i : ℕ) : Option (Track 4 × St) :=
  match st.tracks.lookup i with
  | none => none
  | some tr => some (tr, { st with tracks := st.tracks.filter fun p => p.1 ≠ i })

end St

/-- The "compute all pairs with difference below cutoff" block: for each
detection (in input order) and each track (in registry order), keep
`(k, i, cost)` when the labels agree and the cost is below the cutoff. -/
def btErrs (cutoff : ℚ) (boxes : List Det) (tracks : List (ℕ × Track 4))
    (locs : List (ℕ × (Vec2 4 × Mat2 4))) : List Triple :=
  boxes.enum.flatMap fun kb =>
    tracks.flatMap fun itrk =>
      match locs.lookup itrk.1 with
      | none => []
      | some xP =>
        let e := box_overlap (toBox kb.2.2) (headBox xP.1)
        if kb.2.1 = itrk.2.l ∧ e < cutoff then [(kb.1, itrk.1, e)] else []

/-- The "update positive matches" loop, processing `final` in order and
building `mapper`.  A Kalman solve failure surfaces the partially mutated
track map as the error (in Python the exception propagates mid-loop, after
the failing track's timestamp was already overwritten). -/
def btApply (t : ℚ) (boxes : List Det) :
    List Triple → List (ℕ × Track 4) → List (ℕ × ℕ) →
    Except (List (ℕ × Track 4)) (List (ℕ × Track 4) × List (ℕ × ℕ))
  | [], tracks, mapper => .ok (tracks, mapper)
  | m :: rest, tracks, mapper =>
    let c := (boxes.getD m.1 (0, fun _ => 0)).2
    match tracks.lookup m.2.1 with
    | none => .error tracks
    | some tr =>
      let r := tr.updateRun t c
      let tracks1 := tracks.map fun p => if p.1 = m.2.1 then (p.1, r.1) else p
      if r.2 then btApply t boxes rest tracks1 (mapper ++ [(m.1, m.2.1)])
      else .error tracks1

/-- The "create new tracks for non-matches" loop over the enumerated
detections: reuse the mapped id or `add` a fresh track.  Returns the final
state, the per-detection id list (`match`), and the freshly created ids. -/
def btCreate (t : ℚ) : List (ℕ × Det) → List (ℕ × ℕ) → St →
    St × List ℕ × List ℕ
  | [], _, st => (st, [], [])
  | kb :: rest, mapper, st =>
    match mapper.lookup kb.1 with
    | some j =>
      let r := btCreate t rest mapper st
      (r.1, j :: r.2.1, r.2.2)
    | none =>
      let a := st.add kb.2.1 t kb.2.2
      let r := btCreate t rest (mapper ++ [(kb.1, a.1)]) a.2
      (r.1, a.1 :: r.2.1, a.1 :: r.2.2)

/-- The "clear out old tracks" block: pop every track with
`t > trk.t + timeout`, in registry order. -/
def btEvict (t : ℚ) (st : St) : St × List (ℕ × Track 4) :=
  let done := st.tracks.filter fun p => t > p.2.t + st.timeout
  ({ st with tracks := st.tracks.filter fun p => ¬ t > p.2.t + st.timeout },
   done)

/-- `BoxTracker.update(t, boxes)` through matching and creation (everything
before eviction): returns the intermediate state, the per-detection id
list, and the freshly created ids. -/
def btPhase (st : St) (t : ℚ) (boxes : List Det) :
    Except St (St × List ℕ × List ℕ) :=
  let locs := st.tracks.map fun itrk => (itrk.1, itrk.2.predictTo t)
  let errs := btErrs st.cutoff boxes st.tracks locs
  let final := greedyMatch errs
  match btApply t boxes final st.tracks [] with
  | .error tracksP => .error { st with tracks := tracksP }
  | .ok r => .ok (btCreate t boxes.enum r.2 { st with tracks := r.1 })

/-- `BoxTracker.update(t, boxes)`: matching, creation, then eviction.
Success returns `(new state, match ids, evicted tracks, created ids)`;
a solve failure surfaces the partially mutated registry as the error. -/
def btUpdate (st : St) (t : ℚ) (boxes : List Det) :
    Except St (St × List ℕ × List (ℕ × Track 4) × List ℕ) :=
  match btPhase st t boxes with
  | .error stP => .error stP
  | .ok r =>
    let ev := btEvict t r.1
    .ok (ev.1, r.2.1, ev.2, r.2.2)

/-!  ### Operation traces over a registry  -/

/-- One call of the registry's public mutating API. -/
inductive Op where
  | add (l : ℕ) (t : ℚ) (z : Vec 4)
  | pop (i : ℕ)
  | update (t : ℚ) (boxes : List Det)

/-- Run one operation; the second component lists the ids assigned to
tracks created during the operation.  On a failing call the state at the
point the exception propagates is kept (no creation has happened there). -/
def stepOp (st : St) : Op → St × List ℕ
  | .add l t z => let r := st.add l t z; (r.2, [r.1])
  | .pop i =>
    match st.pop i with
    | none => (st, [])
    | some r => (r.2, [])
  | .update t boxes =>
    match btUpdate st t boxes with
    | .error stP => (stP, [])
    | .ok r => (r.1, r.2.2.2)

/-- Run a sequence of operations, concatenating the created-id lists. -/
def runOps (st : St) : List Op → St × List ℕ
  | [] => (st, [])
  | op :: ops =>
    let r := stepOp st op
    let r2 := runOps r.1 ops
    (r2.1, r.2 ++ r2.2)

/-- Registry invariant: every live id is below the counter, and ids are
pairwise distinct (a Python dict cannot hold duplicate keys). -/
def StInv (st : St) : Prop :=
  (∀ p ∈ st.tracks, p.1 < st.nextid) ∧ (st.tracks.map Prod.fst).Nodup

instance (st : St) : Decidable (StInv st) := by
  unfold StInv; infer_instance

/-- A concrete measurement vector used in concrete instances. -/
def zBox : Vec 4 := fun _ => 3

/-- A concrete registry holding one track last updated at time `1`
(used in concrete instances). -/
def stOne : St :=
  { timeout := 2, cutoff := 1 / 5, length := 250, kalman := kalmanArgs
    nextid := 1, tracks := [(0, mkTrack kalmanArgs 250 0 1 zBox)] }

/-- A matrix is positive semidefinite: its quadratic form is nonnegative. -/
def PSD {m : Type*} [Fintype m] (M : Matrix m m ℚ) : Prop :=
  ∀ v : m → ℚ, 0 ≤ v ⬝ᵥ (M *ᵥ v)

/-- Run a sequence of `Track.update` calls, stopping at the first failure
(the Bool reports whether every call succeeded). -/
def runUpdates {n : ℕ} (tr : Track n) : List (ℚ × Vec n) → Track n × Bool
  | [] => (tr, true)
  | u :: us =>
    if (tr.updateRun u.1 u.2).2 then runUpdates (tr.updateRun u.1 u.2).1 us
    else ((tr.updateRun u.1 u.2).1, false)

/-- A 1-dimensional filter with unit noises: its innovation covariance is
invertible, so updates succeed (used for concrete instances). -/
def kmUnit : Kalman 1 :=
  { σz := fun _ => 1, σv := fun _ => 1 }

/-- A degenerate 1-dimensional filter with zero noise: `P0 = 0`, so the
innovation covariance is singular and updates fail (used for concrete
instances). -/
def km00 : Kalman 1 :=
  { σz := fun _ => 0, σv := fun _ => 0 }

/-!  ## Theorems  -/

section BoxGeometry

theorem box_area_nonneg (l t r b : ℚ) : 0 ≤ box_area l t r b :=
  mul_nonneg (le_max_left 0 _) (le_max_left 0 _)

theorem inter_area_le_left (b1 b2 : Box4) :
    box_area (max b1.1 b2.1) (max b1.2.1 b2.2.1)
      (min b1.2.2.1 b2.2.2.1) (min b1.2.2.2 b2.2.2.2) ≤
      box_area b1.1 b1.2.1 b1.2.2.1 b1.2.2.2 := by
  unfold box_area
  apply mul_le_mul _ _ (le_max_left 0 _) (le_max_left 0 _)
  · exact max_le_max le_rfl (sub_le_sub (min_le_left _ _) (le_max_left _ _))
  · exact max_le_max le_rfl (sub_le_sub (min_le_left _ _) (le_max_left _ _))

theorem inter_area_le_right (b1 b2 : Box4) :
    box_area (max b1.1 b2.1) (max b1.2.1 b2.2.1)
      (min b1.2.2.1 b2.2.2.1) (min b1.2.2.2 b2.2.2.2) ≤
      box_area b2.1 b2.2.1 b2.2.2.1 b2.2.2.2 := by
  unfold box_area
  apply mul_le_mul _ _ (le_max_left 0 _) (le_max_left 0 _)
  · exact max_le_max le_rfl (sub_le_sub (min_le_right _ _) (le_max_right _ _))
  · exact max_le_max le_rfl (sub_le_sub (min_le_right _ _) (le_max_right _ _))

/-- C2: `box_overlap` computes `1 − intersection / max(area₁, area₂)`
(intersection-over-max), the cost always lies in `[0, 1]`, identical boxes
of positive area cost `0`, and disjoint boxes or a box of zero area cost
`1` (over exact rationals `0 / 0 = 0`, so even two degenerate boxes get
cost `1`). -/
theorem box_overlap_spec (b1 b2 : Box4) :
    box_overlap b1 b2 =
      1 - box_area (max b1.1 b2.1) (max b1.2.1 b2.2.1)
            (min b1.2.2.1 b2.2.2.1) (min b1.2.2.2 b2.2.2.2) /
          max (box_area b1.1 b1.2.1 b1.2.2.1 b1.2.2.2)
            (box_area b2.1 b2.2.1 b2.2.2.1 b2.2.2.2) ∧
    (0 ≤ box_overlap b1 b2 ∧ box_overlap b1 b2 ≤ 1) ∧
    (b1 = b2 → 0 < box_area b1.1 b1.2.1 b1.2.2.1 b1.2.2.2 →
      box_overlap b1 b2 = 0) ∧
    (min b1.2.2.1 b2.2.2.1 ≤ max b1.1 b2.1 ∨
        min b1.2.2.2 b2.2.2.2 ≤ max b1.2.1 b2.2.1 →
      box_overlap b1 b2 = 1) ∧
    (box_area b1.1 b1.2.1 b1.2.2.1 b1.2.2.2 = 0 ∨
        box_area b2.1 b2.2.1 b2.2.2.1 b2.2.2.2 = 0 →
      box_overlap b1 b2 = 1) := by
  obtain ⟨l1, t1, r1, d1⟩ := b1
  obtain ⟨l2, t2, r2, d2⟩ := b2
  simp only [box_overlap]
  set a1 := box_area l1 t1 r1 d1 with ha1
  set a2 := box_area l2 t2 r2 d2 with ha2
  set ax := box_area (max l1 l2) (max t1 t2) (min r1 r2) (min d1 d2) with hax
  have hax0 : 0 ≤ ax := box_area_nonneg _ _ _ _
  have ha10 : 0 ≤ a1 := box_area_nonneg _ _ _ _
  have haxle : ax ≤ max a1 a2 :=
    le_trans (inter_area_le_left (l1, t1, r1, d1) (l2, t2, r2, d2)) (le_max_left _ _)
  refine ⟨trivial, ⟨?_, ?_⟩, ?_, ?_, ?_⟩
  · -- 0 ≤ 1 - ax / max a1 a2
    rcases eq_or_ne (max a1 a2) 0 with h | h
    · simp [h]
    · have hpos : 0 < max a1 a2 :=
        lt_of_le_of_ne (le_trans ha10 (le_max_left _ _)) (Ne.symm h)
      have : ax / max a1 a2 ≤ 1 := (div_le_one hpos).mpr haxle
      linarith
  · -- 1 - ax / max a1 a2 ≤ 1
    have : 0 ≤ ax / max a1 a2 :=
      div_nonneg hax0 (le_trans ha10 (le_max_left _ _))
    linarith
  · -- identical boxes of positive area
    intro heq hpos
    cases heq
    have hx : ax = a1 := by rw [hax, ha1, max_self, max_self, min_self, min_self]
    rw [hx, max_self, div_self (ne_of_gt hpos), sub_self]
  · -- disjoint boxes: empty intersection
    intro h
    have hx : ax = 0 := by
      rw [hax]
      unfold box_area
      rcases h with h | h
      · rw [max_eq_left (sub_nonpos.mpr h), zero_mul]
      · rw [max_eq_left (sub_nonpos.mpr h), mul_zero]
    rw [hx, zero_div, sub_zero]
  · -- a degenerate zero-area box
    intro h
    have hx : ax = 0 := by
      rcases h with h | h
      · exact le_antisymm (h ▸ inter_area_le_left (l1, t1, r1, d1) (l2, t2, r2, d2)) hax0
      · exact le_antisymm (h ▸ inter_area_le_right (l1, t1, r1, d1) (l2, t2, r2, d2)) hax0
    rw [hx, zero_div, sub_zero]

end BoxGeometry

/-- Witness for C2 at concrete boxes: identical boxes cost `0`, disjoint
boxes cost `1`, a degenerate zero-width box costs `1`. -/
theorem box_overlap_spec_witness :
    box_overlap ((0 : ℚ), 0, 10, 10) (0, 0, 10, 10) = 0 ∧
    box_overlap ((0 : ℚ), 0, 1, 1) (5, 5, 6, 6) = 1 ∧
    box_overlap ((3 : ℚ), 3, 3, 9) (0, 0, 10, 10) = 1 :=
  ⟨(box_overlap_spec _ _).2.2.1 rfl (by norm_num [box_area]),
   (box_overlap_spec _ _).2.2.2.1 (Or.inl (by norm_num)),
   (box_overlap_spec _ _).2.2.2.2 (Or.inl (by norm_num [box_area]))⟩

section Greedy

theorem minFold_mem (xs : List Triple) (x : Triple) :
    xs.foldl (fun b a => if a.2.2 < b.2.2 then a else b) x = x ∨
      xs.foldl (fun b a => if a.2.2 < b.2.2 then a else b) x ∈ xs := by
  induction xs generalizing x with
  | nil => exact Or.inl rfl
  | cons a xs ih =>
    simp only [List.foldl_cons]
    rcases ih (if a.2.2 < x.2.2 then a else x) with h | h
    · rw [h]
      split
      · exact Or.inr (List.mem_cons_self _ _)
      · exact Or.inl rfl
    · exact Or.inr (List.mem_cons_of_mem _ h)

theorem minFold_le (xs : List Triple) (x : Triple) :
    (xs.foldl (fun b a => if a.2.2 < b.2.2 then a else b) x).2.2 ≤ x.2.2 ∧
      ∀ y ∈ xs,
        (xs.foldl (fun b a => if a.2.2 < b.2.2 then a else b) x).2.2 ≤ y.2.2 := by
  induction xs generalizing x with
  | nil => exact ⟨le_rfl, by simp⟩
  | cons a xs ih =>
    simp only [List.foldl_cons]
    obtain ⟨h1, h2⟩ := ih (if a.2.2 < x.2.2 then a else x)
    by_cases hax : a.2.2 < x.2.2
    · rw [if_pos hax] at h1 h2 ⊢
      exact ⟨le_trans h1 (le_of_lt hax), fun y hy => by
        rcases List.mem_cons.mp hy with rfl | hy
        · exact h1
        · exact h2 y hy⟩
    · rw [if_neg hax] at h1 h2 ⊢
      exact ⟨h1, fun y hy => by
        rcases List.mem_cons.mp hy with rfl | hy
        · exact le_trans h1 (not_lt.mp hax)
        · exact h2 y hy⟩

theorem minFold_first (xs : List Triple) (x : Triple) :
    ∃ p q,
      x :: xs = p ++ xs.foldl (fun b a => if a.2.2 < b.2.2 then a else b) x :: q ∧
        ∀ y ∈ p,
          (xs.foldl (fun b a => if a.2.2 < b.2.2 then a else b) x).2.2 < y.2.2 := by
  induction xs generalizing x with
  | nil => exact ⟨[], [], rfl, by simp⟩
  | cons a xs ih =>
    simp only [List.foldl_cons]
    by_cases hax : a.2.2 < x.2.2
    · rw [if_pos hax]
      obtain ⟨p, q, hpq, hlt⟩ := ih a
      refine ⟨x :: p, q, by rw [List.cons_append, ← hpq], ?_⟩
      intro y hy
      rcases List.mem_cons.mp hy with rfl | hy
      · exact lt_of_le_of_lt (minFold_le xs a).1 hax
      · exact hlt y hy
    · rw [if_neg hax]
      obtain ⟨p, q, hpq, hlt⟩ := ih x
      cases p with
      | nil =>
        injection hpq with h1 h2
        exact ⟨[], a :: xs, by rw [List.nil_append, ← h1], by simp⟩
      | cons ph pt =>
        injection hpq with h1 h2
        simp only [List.append_eq] at h2
        have hx : (xs.foldl (fun b a => if a.2.2 < b.2.2 then a else b) x).2.2 < x.2.2 := by
          have h3 := hlt ph (List.mem_cons_self _ _)
          rwa [← h1] at h3
        refine ⟨x :: a :: pt, q, ?_, ?_⟩
        · rw [List.cons_append, List.cons_append, ← h2]
        · intro y hy
          rcases List.mem_cons.mp hy with rfl | hy
          · exact hx
          rcases List.mem_cons.mp hy with rfl | hy
          · exact lt_of_lt_of_le hx (not_lt.mp hax)
          · exact hlt y (List.mem_cons_of_mem _ hy)

theorem minBy2_none_iff (errs : List Triple) : minBy2 errs = none ↔ errs = [] := by
  cases errs <;> simp [minBy2]

theorem minBy2_mem {errs : List Triple} {m : Triple} (h : minBy2 errs = some m) :
    m ∈ errs := by
  cases errs with
  | nil => simp [minBy2] at h
  | cons x xs =>
    simp only [minBy2, Option.some.injEq] at h
    rcases minFold_mem xs x with h2 | h2
    · rw [← h, h2]; exact List.mem_cons_self _ _
    · rw [← h]; exact List.mem_cons_of_mem _ h2

theorem minBy2_le {errs : List Triple} {m : Triple} (h : minBy2 errs = some m) :
    ∀ y ∈ errs, m.2.2 ≤ y.2.2 := by
  cases errs with
  | nil => simp [minBy2] at h
  | cons x xs =>
    simp only [minBy2, Option.some.injEq] at h
    intro y hy
    rcases List.mem_cons.mp hy with rfl | hy
    · rw [← h]; exact (minFold_le xs y).1
    · rw [← h]; exact (minFold_le xs x).2 y hy

theorem minBy2_first {errs : List Triple} {m : Triple} (h : minBy2 errs = some m) :
    ∃ p q, errs = p ++ m :: q ∧ ∀ y ∈ p, m.2.2 < y.2.2 := by
  cases errs with
  | nil => simp [minBy2] at h
  | cons x xs =>
    simp only [minBy2, Option.some.injEq] at h
    rw [← h]
    exact minFold_first xs x

theorem mem_dropShared {m x : Triple} {errs : List Triple}
    (h : x ∈ dropShared m errs) : x ∈ errs ∧ x.1 ≠ m.1 ∧ x.2.1 ≠ m.2.1 := by
  simpa [dropShared, List.mem_filter] using h

theorem length_dropShared_lt {m : Triple} {errs : List Triple} (h : m ∈ errs) :
    (dropShared m errs).length < errs.length := by
  unfold dropShared
  induction errs with
  | nil => cases h
  | cons a errs ih =>
    rw [List.filter_cons]
    rcases List.mem_cons.mp h with rfl | h
    · rw [if_neg (by simp)]
      exact Nat.lt_succ_of_le (List.length_filter_le _ _)
    · split
      · simpa using Nat.succ_lt_succ (ih h)
      · exact Nat.lt_succ_of_lt (ih h)

theorem gmatch_nil (fuel : ℕ) : gmatch fuel [] = [] := by
  cases fuel <;> simp [gmatch, minBy2]

theorem matchLoop_eq_gmatch (fuel : ℕ) :
    ∀ (errs acc : List Triple), errs.length ≤ fuel →
      matchLoop fuel errs acc = acc ++ gmatch fuel errs := by
  induction fuel with
  | zero =>
    intro errs acc h
    rw [List.length_eq_zero.mp (Nat.le_zero.mp h)]
    simp [matchLoop, gmatch]
  | succ fuel ih =>
    intro errs acc h
    cases hmin : minBy2 errs with
    | none =>
      rw [(minBy2_none_iff errs).mp hmin]
      simp [matchLoop, gmatch, minBy2]
    | some m =>
      have hlen : (dropShared m errs).length ≤ fuel := by
        have hl := length_dropShared_lt (minBy2_mem hmin)
        omega
      unfold matchLoop gmatch
      rw [hmin]
      dsimp only
      by_cases hemp : (dropShared m errs).isEmpty
      · rw [if_pos hemp, List.isEmpty_iff.mp hemp, gmatch_nil]
      · rw [if_neg hemp, ih _ _ hlen]
        simp

theorem gmatch_fuel_irrel (f1 : ℕ) :
    ∀ (f2 : ℕ) (errs : List Triple), errs.length ≤ f1 → errs.length ≤ f2 →
      gmatch f1 errs = gmatch f2 errs := by
  induction f1 with
  | zero =>
    intro f2 errs h1 _
    rw [List.length_eq_zero.mp (Nat.le_zero.mp h1), gmatch_nil, gmatch_nil]
  | succ f1 ih =>
    intro f2 errs h1 h2
    cases f2 with
    | zero => rw [List.length_eq_zero.mp (Nat.le_zero.mp h2), gmatch_nil, gmatch_nil]
    | succ f2 =>
      unfold gmatch
      cases hmin : minBy2 errs with
      | none => rfl
      | some m =>
        dsimp only
        have hl := length_dropShared_lt (minBy2_mem hmin)
        rw [ih f2 _ (by omega) (by omega)]

theorem greedyMatch_eq_gmatch (errs : List Triple) :
    greedyMatch errs = gmatch errs.length errs :=
  matchLoop_eq_gmatch errs.length errs [] le_rfl

theorem greedyMatch_rec (errs : List Triple) :
    greedyMatch errs =
      match minBy2 errs with
      | none => []
      | some m => m :: greedyMatch (dropShared m errs) := by
  rw [greedyMatch_eq_gmatch]
  cases hmin : minBy2 errs with
  | none =>
    rw [(minBy2_none_iff errs).mp hmin]
    simp [gmatch_nil]
  | some m =>
    have hl := length_dropShared_lt (minBy2_mem hmin)
    cases herrs : errs.length with
    | zero =>
      rw [List.length_eq_zero.mp herrs] at hmin
      simp [minBy2] at hmin
    | succ k =>
      unfold gmatch
      rw [hmin]
      dsimp only
      rw [greedyMatch_eq_gmatch]
      refine congrArg (m :: ·) (gmatch_fuel_irrel k _ _ ?_ le_rfl)
      rw [herrs] at hl
      omega

theorem gmatch_sub (fuel : ℕ) :
    ∀ errs : List Triple, ∀ x ∈ gmatch fuel errs, x ∈ errs := by
  induction fuel with
  | zero => intro errs x hx; simp [gmatch] at hx
  | succ fuel ih =>
    intro errs x hx
    rw [gmatch] at hx
    cases hmin : minBy2 errs with
    | none => rw [hmin] at hx; cases hx
    | some m =>
      rw [hmin] at hx
      rcases List.mem_cons.mp hx with rfl | hx
      · exact minBy2_mem hmin
      · exact (mem_dropShared (ih _ x hx)).1

theorem gmatch_pairwise (fuel : ℕ) :
    ∀ errs : List Triple,
      (gmatch fuel errs).Pairwise fun a b => a.1 ≠ b.1 ∧ a.2.1 ≠ b.2.1 := by
  induction fuel with
  | zero => intro errs; simp [gmatch]
  | succ fuel ih =>
    intro errs
    rw [gmatch]
    cases hmin : minBy2 errs with
    | none => exact List.Pairwise.nil
    | some m =>
      refine List.Pairwise.cons ?_ (ih _)
      intro x hx
      obtain ⟨-, h1, h2⟩ := mem_dropShared (gmatch_sub fuel _ x hx)
      exact ⟨Ne.symm h1, Ne.symm h2⟩

/-- C3: the association loop commits the remaining triple of globally
smallest cost — the first minimal one in candidate order — discards every
remaining triple sharing its detection index or track id, and repeats until
no candidates remain; on identical inputs it returns identical results. -/
theorem greedy_assoc_spec (errs : List Triple) :
    (greedyMatch errs =
      match minBy2 errs with
      | none => []
      | some m => m :: greedyMatch (dropShared m errs)) ∧
    (∀ m, minBy2 errs = some m →
      m ∈ errs ∧ (∀ y ∈ errs, m.2.2 ≤ y.2.2) ∧
        ∃ p q, errs = p ++ m :: q ∧ ∀ y ∈ p, m.2.2 < y.2.2) ∧
    (minBy2 errs = none ↔ errs = []) ∧
    ∀ errs2, errs2 = errs → greedyMatch errs2 = greedyMatch errs := by
  refine ⟨greedyMatch_rec errs, ?_, minBy2_none_iff errs, ?_⟩
  · intro m hm
    exact ⟨minBy2_mem hm, minBy2_le hm, minBy2_first hm⟩
  · intro errs2 h
    rw [h]

/-- Witness for C3 at a concrete candidate list with a cost tie. -/
theorem greedy_assoc_spec_witness :
    minBy2 [((0 : ℕ), (5 : ℕ), (1 : ℚ) / 2), (0, 6, 1 / 4), (1, 5, 1 / 4)] =
        some (0, 6, 1 / 4) ∧
      (0, 6, (1 : ℚ) / 4) ∈
        [((0 : ℕ), (5 : ℕ), (1 : ℚ) / 2), (0, 6, 1 / 4), (1, 5, 1 / 4)] :=
  ⟨by norm_num [minBy2],
   ((greedy_assoc_spec _).2.1 _ (by norm_num [minBy2])).1⟩

end Greedy

section TrackHistory

theorem dequeMk_zero {α : Type*} (xs : List α) : dequeMk 0 xs = [] := by
  simp [dequeMk]

theorem dequeMk_of_le {α : Type*} {cap : ℕ} {xs : List α} (h : xs.length ≤ cap) :
    dequeMk cap xs = xs := by
  simp [dequeMk, Nat.sub_eq_zero_of_le h]

theorem dequeAppend_length {α : Type*} (cap : ℕ) (xs : List α) (x : α) :
    (dequeAppend cap xs x).length = min (xs.length + 1) cap := by
  simp [dequeAppend, dequeMk]
  omega

theorem dequeAppend_full {α : Type*} {cap : ℕ} {xs : List α} (x : α)
    (hcap : 0 < cap) (hfull : xs.length = cap) :
    dequeAppend cap xs x = xs.drop 1 ++ [x] := by
  cases xs with
  | nil => rw [List.length_nil] at hfull; omega
  | cons a as =>
    show ((a :: as) ++ [x]).drop (((a :: as) ++ [x]).length - cap) =
      (a :: as).drop 1 ++ [x]
    have h1 : ((a :: as) ++ [x]).length - cap = 1 := by
      rw [List.length_append]
      rw [← hfull]
      simp
    rw [h1]
    simp

theorem updateRun_fail_eq {n : ℕ} {tr : Track n} {t : ℚ} {z : Vec n}
    (h : (tr.updateRun t z).2 = false) :
    tr.updateRun t z = ({ tr with t := t }, false) := by
  unfold Track.updateRun at h ⊢
  cases hu : tr.kalman.update tr.x tr.P z (t - tr.t) with
  | none => rfl
  | some xP => rw [hu] at h; simp at h

theorem updateRun_succ_eq {n : ℕ} {tr : Track n} {t : ℚ} {z : Vec n}
    {xP : Vec2 n × Mat2 n}
    (h : tr.kalman.update tr.x tr.P z (t - tr.t) = some xP) :
    tr.updateRun t z =
      ({ tr with
          t := t, x := xP.1, P := xP.2
          hist := dequeAppend tr.cap tr.hist (t, z, xP.1, xP.2) }, true) := by
  unfold Track.updateRun
  rw [h]

theorem updateRun_flag {n : ℕ} (tr : Track n) (t : ℚ) (z : Vec n) :
    (tr.updateRun t z).2 = (tr.kalman.update tr.x tr.P z (t - tr.t)).isSome := by
  unfold Track.updateRun
  cases tr.kalman.update tr.x tr.P z (t - tr.t) <;> rfl

theorem updateRun_cap {n : ℕ} (tr : Track n) (t : ℚ) (z : Vec n) :
    (tr.updateRun t z).1.cap = tr.cap := by
  unfold Track.updateRun
  cases tr.kalman.update tr.x tr.P z (t - tr.t) <;> rfl

/-- Concrete evaluation: the innovation covariance of `kmUnit` at
`P = P0`, `dt = 1` is the 1×1 matrix `[3]`. -/
theorem kmUnit_S_eq :
    kmUnit.H * (kmUnit.F 1 * kmUnit.P0 * (kmUnit.F 1)ᵀ) * kmUnit.Hᵀ + kmUnit.R =
      Matrix.of ![![(3 : ℚ)]] := by
  ext i j
  fin_cases i; fin_cases j
  simp [Kalman.H, Kalman.R, Kalman.P0, Kalman.Pv, Kalman.F, kmUnit,
    Matrix.mul_apply, Fintype.sum_sum_type, Matrix.fromColumns_apply_inl,
    Matrix.fromColumns_apply_inr, Matrix.fromBlocks_apply₁₁,
    Matrix.fromBlocks_apply₁₂, Matrix.fromBlocks_apply₂₁,
    Matrix.fromBlocks_apply₂₂, Matrix.one_apply, Matrix.diagonal_apply]
  norm_num

/-- Concrete evaluation: the innovation covariance of `km00` is `0`. -/
theorem km00_S_eq :
    km00.H * (km00.F 1 * km00.P0 * (km00.F 1)ᵀ) * km00.Hᵀ + km00.R =
      Matrix.of ![![(0 : ℚ)]] := by
  ext i j
  fin_cases i; fin_cases j
  simp [Kalman.H, Kalman.R, Kalman.P0, Kalman.Pv, Kalman.F, km00,
    Matrix.mul_apply, Fintype.sum_sum_type, Matrix.fromColumns_apply_inl,
    Matrix.fromColumns_apply_inr, Matrix.fromBlocks_apply₁₁,
    Matrix.fromBlocks_apply₁₂, Matrix.fromBlocks_apply₂₁,
    Matrix.fromBlocks_apply₂₂, Matrix.one_apply, Matrix.diagonal_apply]

theorem kmUnit_update_isSome (x : Vec2 1) (z : Vec 1) :
    (kmUnit.update x kmUnit.P0 z 1).isSome = true := by
  simp only [Kalman.update, Kalman.predict, kmUnit_S_eq, Matrix.det_fin_one]
  norm_num

theorem km00_update_none (x : Vec2 1) (z : Vec 1) :
    km00.update x km00.P0 z 1 = none := by
  simp only [Kalman.update, Kalman.predict, km00_S_eq, Matrix.det_fin_one]
  norm_num

theorem kmUnit_track_flag (cap : ℕ) :
    ((mkTrack kmUnit cap 0 0 fun _ => 3).updateRun 1 fun _ => 4).2 = true := by
  rw [updateRun_flag]
  show (kmUnit.update (kmUnit.start fun _ => 3).1 kmUnit.P0 (fun _ => 4) (1 - 0)).isSome = true
  rw [sub_zero]
  exact kmUnit_update_isSome _ _

theorem km00_track_flag :
    ((mkTrack km00 5 0 0 fun _ => 3).updateRun 1 fun _ => 4).2 = false := by
  rw [updateRun_flag]
  show (km00.update (km00.start fun _ => 3).1 km00.P0 (fun _ => 4) (1 - 0)).isSome = false
  rw [sub_zero, km00_update_none]
  rfl

/-- C1 counterexample: with a zero-noise 1-dimensional filter the Kalman
solve fails (`S` singular), the failure is surfaced (`false`), yet the
track's timestamp has been overwritten from `0` to `1` — the prior state
is *not* left unchanged. -/
theorem update_fail_mutation_cx :
    (((mkTrack km00 5 0 0 fun _ => 3).updateRun 1 fun _ => 4).2 = false) ∧
    ((mkTrack km00 5 0 0 fun _ => 3).updateRun 1 fun _ => 4).1.t = 1 ∧
    (mkTrack km00 5 0 0 fun _ => 3).t = 0 ∧
    ((mkTrack km00 5 0 0 fun _ => 3).updateRun 1 fun _ => 4).1 ≠
      mkTrack km00 5 0 0 fun _ => 3 := by
  have h := km00_track_flag
  refine ⟨h, ?_, rfl, ?_⟩
  · rw [updateRun_fail_eq h]
  · rw [updateRun_fail_eq h]
    intro hc
    have := congrArg Track.t hc
    simp [mkTrack] at this

/-- C1 (amended): a failing `Track.update` surfaces the failure and leaves
`x`, `P`, the history, the label and the capacity unchanged, but the
timestamp has already been overwritten with the new time `t` — so the
prior state is not fully preserved (and a registry update that fails
mid-frame keeps the updates already committed to other tracks). -/
theorem update_fail_surfaced {n : ℕ} (tr : Track n) (t : ℚ) (z : Vec n)
    (h : (tr.updateRun t z).2 = false) :
    (tr.updateRun t z).1.x = tr.x ∧ (tr.updateRun t z).1.P = tr.P ∧
    (tr.updateRun t z).1.hist = tr.hist ∧ (tr.updateRun t z).1.t = t ∧
    (tr.updateRun t z).1.l = tr.l ∧ (tr.updateRun t z).1.cap = tr.cap := by
  rw [updateRun_fail_eq h]
  exact ⟨rfl, rfl, rfl, rfl, rfl, rfl⟩

/-- Witness for the amended C1 at the concrete failing track. -/
theorem update_fail_surfaced_witness :
    (((mkTrack km00 5 0 0 fun _ => 3).updateRun 1 fun _ => 4).2 = false) ∧
    ((mkTrack km00 5 0 0 fun _ => 3).updateRun 1 fun _ => 4).1.hist =
      (mkTrack km00 5 0 0 fun _ => 3).hist ∧
    ((mkTrack km00 5 0 0 fun _ => 3).updateRun 1 fun _ => 4).1.t = 1 :=
  ⟨km00_track_flag,
   (update_fail_surfaced _ _ _ km00_track_flag).2.2.1,
   (update_fail_surfaced _ _ _ km00_track_flag).2.2.2.1⟩

theorem updateRun_hist_zero {n : ℕ} {tr : Track n} (t : ℚ) (z : Vec n)
    (hcap : tr.cap = 0) (hh : tr.hist = []) :
    (tr.updateRun t z).1.hist = [] := by
  unfold Track.updateRun
  cases tr.kalman.update tr.x tr.P z (t - tr.t) with
  | none => exact hh
  | some xP =>
    show dequeAppend tr.cap tr.hist _ = []
    rw [hcap]
    exact dequeMk_zero _

/-- C6 counterexample: a capacity-0 track (constructible via
`BoxTracker(length=0)`) has a full history (`0 = 0`); a successful update
appends nothing — the new sample is itself dropped — so the "evict the
oldest, append the new" FIFO description fails. -/
theorem hist_fifo_cx :
    ((mkTrack kmUnit 0 0 0 fun _ => 3).hist.length =
      (mkTrack kmUnit 0 0 0 fun _ => 3).cap) ∧
    (((mkTrack kmUnit 0 0 0 fun _ => 3).updateRun 1 fun _ => 4).2 = true) ∧
    ((mkTrack kmUnit 0 0 0 fun _ => 3).updateRun 1 fun _ => 4).1.hist ≠
      (mkTrack kmUnit 0 0 0 fun _ => 3).hist.drop 1 ++
        [(1, fun _ => 4,
          ((mkTrack kmUnit 0 0 0 fun _ => 3).updateRun 1 fun _ => 4).1.x,
          ((mkTrack kmUnit 0 0 0 fun _ => 3).updateRun 1 fun _ => 4).1.P)] := by
  have hh : (mkTrack kmUnit 0 0 0 fun _ => 3).hist = [] := dequeMk_zero _
  refine ⟨by rw [hh]; rfl, kmUnit_track_flag 0, ?_⟩
  rw [updateRun_hist_zero 1 _ rfl hh, hh]
  simp

/-- C6 (amended): a track's history length never exceeds its capacity, and
for *positive* capacity, once the history is full a successful update drops
the oldest sample and appends the new one (FIFO).  (For capacity 0 the new
sample itself is discarded, see the counterexample.) -/
theorem track_hist_bounded {n : ℕ} (tr : Track n) (t : ℚ) (z : Vec n)
    (hlen : tr.hist.length ≤ tr.cap) :
    ((tr.updateRun t z).1.hist.length ≤ tr.cap) ∧
    (0 < tr.cap → tr.hist.length = tr.cap → (tr.updateRun t z).2 = true →
      (tr.updateRun t z).1.hist =
        tr.hist.drop 1 ++ [(t, z, (tr.updateRun t z).1.x, (tr.updateRun t z).1.P)]) := by
  cases hu : tr.kalman.update tr.x tr.P z (t - tr.t) with
  | none =>
    have hf : (tr.updateRun t z).2 = false := by rw [updateRun_flag, hu]; rfl
    rw [updateRun_fail_eq hf]
    exact ⟨hlen, fun _ _ hc => by simp at hc⟩
  | some xP =>
    rw [updateRun_succ_eq hu]
    constructor
    · show (dequeAppend tr.cap tr.hist (t, z, xP.1, xP.2)).length ≤ tr.cap
      rw [dequeAppend_length]
      exact min_le_right _ _
    · intro hcap hfull _
      show dequeAppend tr.cap tr.hist (t, z, xP.1, xP.2) =
        tr.hist.drop 1 ++ [(t, z, xP.1, xP.2)]
      exact dequeAppend_full _ hcap hfull

/-- Witness for the amended C6 at a concrete capacity-1 track. -/
theorem track_hist_bounded_witness :
    (mkTrack kmUnit 1 0 0 fun _ => 3).hist.length ≤
      (mkTrack kmUnit 1 0 0 fun _ => 3).cap ∧
    ((mkTrack kmUnit 1 0 0 fun _ => 3).updateRun 1 fun _ => 4).1.hist.length ≤
      (mkTrack kmUnit 1 0 0 fun _ => 3).cap :=
  have hlen : (mkTrack kmUnit 1 0 0 fun _ => 3).hist.length ≤
      (mkTrack kmUnit 1 0 0 fun _ => 3).cap := by
    simp [mkTrack, dequeMk]
  ⟨hlen, (track_hist_bounded _ 1 _ hlen).1⟩

theorem min_add_shift (a k c : ℕ) : min (min (a + 1) c + k) c = min (a + 1 + k) c := by
  rcases le_total (a + 1) c with h | h
  · rw [min_eq_left h]
  · rw [min_eq_right h, min_eq_right (Nat.le_add_right c k),
      min_eq_right (by omega)]

theorem runUpdates_len {n : ℕ} (us : List (ℚ × Vec n)) :
    ∀ tr : Track n, tr.hist.length ≤ tr.cap → (runUpdates tr us).2 = true →
      (runUpdates tr us).1.hist.length = min (tr.hist.length + us.length) tr.cap ∧
      (runUpdates tr us).1.cap = tr.cap := by
  induction us with
  | nil =>
    intro tr hlen _
    refine ⟨?_, rfl⟩
    show tr.hist.length = min (tr.hist.length + List.length []) tr.cap
    rw [List.length_nil, Nat.add_zero, min_eq_left hlen]
  | cons u us ih =>
    intro tr hlen hflag
    unfold runUpdates at hflag ⊢
    by_cases hfl : (tr.updateRun u.1 u.2).2 = true
    · rw [if_pos hfl] at hflag ⊢
      obtain ⟨xP, hu⟩ := Option.isSome_iff_exists.mp ((updateRun_flag tr u.1 u.2) ▸ hfl)
      have hform := updateRun_succ_eq hu
      have hlen1 : (tr.updateRun u.1 u.2).1.hist.length = min (tr.hist.length + 1) tr.cap := by
        rw [hform]
        exact dequeAppend_length _ _ _
      have hcap1 : (tr.updateRun u.1 u.2).1.cap = tr.cap := updateRun_cap _ _ _
      obtain ⟨h1, h2⟩ := ih _ (by rw [hlen1, hcap1]; exact min_le_right _ _) hflag
      refine ⟨?_, by rw [h2, hcap1]⟩
      rw [h1, hlen1, hcap1, List.length_cons, min_add_shift]
      congr 1
      omega
    · rw [if_neg hfl] at hflag
      simp at hflag

/-- C10 counterexample: with capacity 0 the very construction of a Track
records no sample at all, so the history is empty, not non-empty. -/
theorem hist_init_cx : (mkTrack kmUnit 0 0 0 fun _ => 3).hist = [] :=
  dequeMk_zero _

/-- C10 (amended): for capacity ≥ 1, track construction immediately records
the sample `(t, z, started x, P0)`, so the history starts non-empty, and
after `k` further successful updates it holds `min (k + 1) capacity`
samples (hence stays non-empty). -/
theorem track_hist_init {n : ℕ} (km : Kalman n) (cap l : ℕ) (t : ℚ) (z : Vec n)
    (us : List (ℚ × Vec n)) (hcap : 1 ≤ cap) :
    (mkTrack km cap l t z).hist = [(t, z, (km.start z).1, (km.start z).2)] ∧
    ((runUpdates (mkTrack km cap l t z) us).2 = true →
      (runUpdates (mkTrack km cap l t z) us).1.hist.length = min (us.length + 1) cap ∧
      (runUpdates (mkTrack km cap l t z) us).1.hist ≠ []) := by
  have hh : (mkTrack km cap l t z).hist = [(t, z, (km.start z).1, (km.start z).2)] :=
    dequeMk_of_le (by simpa using hcap)
  refine ⟨hh, fun hflag => ?_⟩
  obtain ⟨h1, -⟩ := runUpdates_len us (mkTrack km cap l t z)
    (by rw [hh]; simpa using hcap) hflag
  rw [hh] at h1
  simp only [List.length_singleton] at h1
  have hc : (mkTrack km cap l t z).cap = cap := rfl
  rw [hc] at h1
  constructor
  · rw [h1, Nat.add_comm 1 us.length]
  · rw [← List.length_pos, h1]
    exact lt_min (by omega) hcap

/-- Witness for the amended C10 at a concrete capacity-1 track. -/
theorem track_hist_init_witness :
    (1 : ℕ) ≤ 1 ∧
    (mkTrack kmUnit 1 0 0 fun _ => 3).hist =
      [(0, fun _ => 3, (kmUnit.start fun _ => 3).1, (kmUnit.start fun _ => 3).2)] :=
  ⟨le_rfl, (track_hist_init kmUnit 1 0 0 (fun _ => 3) [] le_rfl).1⟩

end TrackHistory

section Filter

theorem F_mul {n : ℕ} (km : Kalman n) (dt1 dt2 : ℚ) :
    km.F dt2 * km.F dt1 = km.F (dt1 + dt2) := by
  unfold Kalman.F
  rw [Matrix.fromBlocks_multiply]
  simp [add_smul, Matrix.smul_mul, Matrix.mul_smul]

theorem F_zero {n : ℕ} (km : Kalman n) : km.F 0 = 1 := by
  unfold Kalman.F
  rw [zero_smul, Matrix.fromBlocks_one]

/-- C8: the constant-velocity transition composes additively in `dt`
(exactly, over exact arithmetic), and `predict` with `dt = 0` is the
identity on `(x, P)`. -/
theorem predict_compose {n : ℕ} (km : Kalman n) (x : Vec2 n) (P : Mat2 n)
    (dt1 dt2 : ℚ) :
    km.predict (km.predict x P dt1).1 (km.predict x P dt1).2 dt2 =
      km.predict x P (dt1 + dt2) ∧
    km.predict x P 0 = (x, P) := by
  constructor
  · unfold Kalman.predict
    dsimp only
    rw [Prod.mk.injEq]
    constructor
    · rw [Matrix.mulVec_mulVec, F_mul]
    · rw [← F_mul km dt1 dt2, Matrix.transpose_mul]
      simp only [mul_assoc]
  · unfold Kalman.predict
    rw [F_zero, Prod.mk.injEq]
    constructor
    · exact Matrix.one_mulVec x
    · rw [Matrix.transpose_one, mul_one, one_mul]

theorem dot_mulVec_left {m k : Type*} [Fintype m] [Fintype k]
    (v : m → ℚ) (B : Matrix m k ℚ) (w : k → ℚ) :
    v ⬝ᵥ (B *ᵥ w) = (Bᵀ *ᵥ v) ⬝ᵥ w := by
  rw [Matrix.dotProduct_mulVec, ← Matrix.mulVec_transpose]

theorem PSD_add {m : Type*} [Fintype m] {A B : Matrix m m ℚ}
    (hA : PSD A) (hB : PSD B) : PSD (A + B) := by
  intro v
  rw [Matrix.add_mulVec, Matrix.dotProduct_add]
  exact add_nonneg (hA v) (hB v)

theorem PSD_conj {m k : Type*} [Fintype m] [Fintype k] {P : Matrix m m ℚ}
    (h : PSD P) (B : Matrix k m ℚ) : PSD (B * P * Bᵀ) := by
  intro v
  rw [← Matrix.mulVec_mulVec, ← Matrix.mulVec_mulVec, dot_mulVec_left]
  exact h _

theorem IsSymm_conj {m k : Type*} [Fintype m] [Fintype k] {P : Matrix m m ℚ}
    (h : P.IsSymm) (B : Matrix k m ℚ) : (B * P * Bᵀ).IsSymm := by
  show (B * P * Bᵀ)ᵀ = B * P * Bᵀ
  rw [Matrix.transpose_mul, Matrix.transpose_mul, Matrix.transpose_transpose,
    h.eq, Matrix.mul_assoc]

theorem PSD_diag {m : Type*} [Fintype m] [DecidableEq m] (d : m → ℚ)
    (h : ∀ i, 0 ≤ d i) : PSD (Matrix.diagonal d) := by
  intro v
  have hv : Matrix.diagonal d *ᵥ v = fun i => d i * v i := by
    funext i
    exact Matrix.mulVec_diagonal d v i
  rw [hv]
  simp only [Matrix.dotProduct]
  apply Finset.sum_nonneg
  intro i _
  have hcomm : v i * (d i * v i) = d i * (v i * v i) := by ring
  rw [hcomm]
  exact mul_nonneg (h i) (mul_self_nonneg _)

theorem PSD_one {m : Type*} [Fintype m] [DecidableEq m] :
    PSD (1 : Matrix m m ℚ) := by
  intro v
  rw [Matrix.one_mulVec]
  simp only [Matrix.dotProduct]
  exact Finset.sum_nonneg fun i _ => mul_self_nonneg _

theorem R_symm {n : ℕ} (km : Kalman n) : (km.R).IsSymm := by
  unfold Kalman.R
  exact Matrix.isSymm_diagonal _

theorem R_psd {n : ℕ} (km : Kalman n) : PSD km.R := by
  unfold Kalman.R
  exact PSD_diag _ fun i => sq_nonneg _

theorem P0_symm {n : ℕ} (km : Kalman n) : (km.P0).IsSymm := by
  unfold Kalman.P0 Kalman.R Kalman.Pv
  rw [Matrix.fromBlocks_diagonal]
  exact Matrix.isSymm_diagonal _

theorem P0_psd {n : ℕ} (km : Kalman n) : PSD km.P0 := by
  unfold Kalman.P0 Kalman.R Kalman.Pv
  rw [Matrix.fromBlocks_diagonal]
  apply PSD_diag
  intro i
  rcases i with a | a <;> simpa using sq_nonneg _

/-- C7: for every symmetric positive semidefinite `P`, `start` returns the
symmetric PSD `P0`, `predict` returns the symmetric PSD `F P Fᵀ`, and when
its linear solve succeeds `update` returns the symmetric PSD
`(I − K H) P′` (exact arithmetic), for every `dt` and measurement `z`. -/
theorem kalman_psd {n : ℕ} (km : Kalman n) (x : Vec2 n) (P : Mat2 n)
    (z : Vec n) (dt : ℚ) (hsym : P.IsSymm) (hpsd : PSD P) :
    ((km.start z).2.IsSymm ∧ PSD (km.start z).2) ∧
    ((km.predict x P dt).2.IsSymm ∧ PSD (km.predict x P dt).2) ∧
    ∀ r, km.update x P z dt = some r → r.2.IsSymm ∧ PSD r.2 := by
  have hP1sym : (km.F dt * P * (km.F dt)ᵀ).IsSymm := IsSymm_conj hsym _
  have hP1psd : PSD (km.F dt * P * (km.F dt)ᵀ) := PSD_conj hpsd _
  refine ⟨⟨P0_symm km, P0_psd km⟩, ⟨hP1sym, hP1psd⟩, ?_⟩
  intro r hr
  simp only [Kalman.update, Kalman.predict] at hr
  set P1 := km.F dt * P * (km.F dt)ᵀ with hP1
  set S := km.H * P1 * km.Hᵀ + km.R with hS
  by_cases hdet : S.det = 0
  · rw [if_pos hdet] at hr
    cases hr
  · rw [if_neg hdet] at hr
    set K := (qInv S * (P1 * km.Hᵀ)ᵀ)ᵀ with hK
    injection hr with hr
    subst hr
    have hSsym : S.IsSymm := by
      rw [hS]
      exact (IsSymm_conj hP1sym km.H).add (R_symm km)
    have hSdet : IsUnit S.det := isUnit_iff_ne_zero.mpr hdet
    have hKeq : K = P1 * km.Hᵀ * S⁻¹ := by
      rw [hK, Matrix.transpose_mul, Matrix.transpose_transpose, qInv_eq_inv,
        Matrix.transpose_nonsing_inv, hSsym.eq]
    have hKS : K * S = P1 * km.Hᵀ := by
      rw [hKeq, Matrix.mul_assoc, Matrix.nonsing_inv_mul S hSdet, Matrix.mul_one]
    have h1 : K * (km.H * P1 * km.Hᵀ) + K * km.R = P1 * km.Hᵀ := by
      rw [← Matrix.mul_add, ← hS, hKS]
    have h2 : K * (km.H * P1 * km.Hᵀ) * Kᵀ + K * km.R * Kᵀ = P1 * km.Hᵀ * Kᵀ := by
      rw [← Matrix.add_mul, h1]
    have e1 : (K * km.H) * P1 * (K * km.H)ᵀ = K * (km.H * P1 * km.Hᵀ) * Kᵀ := by
      rw [Matrix.transpose_mul]
      simp only [Matrix.mul_assoc]
    have e2 : P1 * (K * km.H)ᵀ = P1 * km.Hᵀ * Kᵀ := by
      rw [Matrix.transpose_mul, ← Matrix.mul_assoc]
    have h3 : (K * km.H) * P1 * (K * km.H)ᵀ + K * km.R * Kᵀ = P1 * (K * km.H)ᵀ := by
      rw [e1, e2]
      exact h2
    have key : (1 - K * km.H) * P1 =
        (1 - K * km.H) * P1 * (1 - K * km.H)ᵀ + K * km.R * Kᵀ := by
      have hGt : (1 - K * km.H)ᵀ = 1 - (K * km.H)ᵀ := by
        rw [Matrix.transpose_sub, Matrix.transpose_one]
      rw [hGt]
      have expand : (1 - K * km.H) * P1 * (1 - (K * km.H)ᵀ)
          = (1 - K * km.H) * P1 - P1 * (K * km.H)ᵀ +
            (K * km.H) * P1 * (K * km.H)ᵀ := by
        noncomm_ring
      rw [expand, add_assoc, h3]
      noncomm_ring
    constructor
    · show ((1 - K * km.H) * P1).IsSymm
      rw [key]
      exact (IsSymm_conj hP1sym _).add (IsSymm_conj (R_symm km) K)
    · show PSD ((1 - K * km.H) * P1)
      rw [key]
      exact PSD_add (PSD_conj hP1psd _) (PSD_conj (R_psd km) K)

/-- Witness for C7 at a concrete symmetric PSD covariance (the identity). -/
theorem kalman_psd_witness :
    (1 : Mat2 1).IsSymm ∧ PSD (1 : Mat2 1) ∧
    ((kmUnit.predict (Sum.elim (fun _ => 3) fun _ => 0) 1 5).2.IsSymm ∧
      PSD (kmUnit.predict (Sum.elim (fun _ => 3) fun _ => 0) 1 5).2) :=
  ⟨Matrix.isSymm_one, PSD_one,
   (kalman_psd kmUnit (Sum.elim (fun _ => 3) fun _ => 0) 1 (fun _ => 4) 5
      Matrix.isSymm_one PSD_one).2.1⟩

end Filter

section Registry

theorem updateRun_t {n : ℕ} (tr : Track n) (t : ℚ) (z : Vec n) :
    (tr.updateRun t z).1.t = t := by
  unfold Track.updateRun
  cases tr.kalman.update tr.x tr.P z (t - tr.t) <;> rfl

theorem mem_of_lookup {l : List (ℕ × ℕ)} {k j : ℕ} (h : l.lookup k = some j) :
    (k, j) ∈ l := by
  obtain ⟨l1, l2, rfl, -⟩ := List.lookup_eq_some_iff.mp h
  simp

theorem mem_of_lookup_track {l : List (ℕ × Track 4)} {k : ℕ} {tr : Track 4}
    (h : l.lookup k = some tr) : (k, tr) ∈ l := by
  obtain ⟨l1, l2, rfl, -⟩ := List.lookup_eq_some_iff.mp h
  simp

theorem upd_keys (tracks : List (ℕ × Track 4)) (j : ℕ) (tr1 : Track 4) :
    (tracks.map fun p => if p.1 = j then (p.1, tr1) else p).map Prod.fst =
      tracks.map Prod.fst := by
  rw [List.map_map]
  apply List.map_congr_left
  intro p _
  by_cases hp : p.1 = j
  · simp [hp]
  · simp [hp]

theorem btApply_ok_spec (t : ℚ) (boxes : List Det) (final : List Triple) :
    ∀ (tracks : List (ℕ × Track 4)) (mapper : List (ℕ × ℕ))
      (r : List (ℕ × Track 4) × List (ℕ × ℕ)),
      btApply t boxes final tracks mapper = .ok r →
      r.1.map Prod.fst = tracks.map Prod.fst ∧
      r.2 = mapper ++ final.map (fun m => (m.1, m.2.1)) ∧
      ∀ p ∈ r.1,
        (p ∈ tracks ∧ p.1 ∉ final.map fun m => m.2.1) ∨ p.2.t = t := by
  induction final with
  | nil =>
    intro tracks mapper r h
    simp only [btApply, Except.ok.injEq] at h
    subst h
    refine ⟨rfl, by simp, ?_⟩
    intro p hp
    exact Or.inl ⟨hp, by simp⟩
  | cons m rest ih =>
    intro tracks mapper r h
    simp only [btApply] at h
    cases hlk : tracks.lookup m.2.1 with
    | none => rw [hlk] at h; simp at h
    | some tr =>
      rw [hlk] at h
      dsimp only at h
      by_cases hfl : (tr.updateRun t (boxes.getD m.1 (0, fun _ => 0)).2).2 = true
      · rw [if_pos hfl] at h
        obtain ⟨hkeys, hmap, hent⟩ := ih _ _ _ h
        refine ⟨hkeys.trans (upd_keys _ _ _), ?_, ?_⟩
        · rw [hmap, List.map_cons, List.append_assoc]
          rfl
        · intro p hp
          rcases hent p hp with ⟨hp1, hp2⟩ | hp2
          · obtain ⟨q, hq, hfq⟩ := List.mem_map.mp hp1
            by_cases hqj : q.1 = m.2.1
            · rw [if_pos hqj] at hfq
              right
              rw [← hfq]
              exact updateRun_t _ _ _
            · rw [if_neg hqj] at hfq
              left
              refine ⟨hfq ▸ hq, ?_⟩
              rw [List.map_cons]
              intro hc
              rcases List.mem_cons.mp hc with hc | hc
              · rw [← hfq] at hp2 hc
                exact hqj hc
              · exact hp2 hc
          · exact Or.inr hp2
      · rw [if_neg hfl] at h
        simp at h

theorem btApply_error_keys (t : ℚ) (boxes : List Det) (final : List Triple) :
    ∀ (tracks : List (ℕ × Track 4)) (mapper : List (ℕ × ℕ))
      (trP : List (ℕ × Track 4)),
      btApply t boxes final tracks mapper = .error trP →
      trP.map Prod.fst = tracks.map Prod.fst := by
  induction final with
  | nil =>
    intro tracks mapper trP h
    simp [btApply] at h
  | cons m rest ih =>
    intro tracks mapper trP h
    simp only [btApply] at h
    cases hlk : tracks.lookup m.2.1 with
    | none =>
      rw [hlk] at h
      simp only [Except.error.injEq] at h
      rw [← h]
    | some tr =>
      rw [hlk] at h
      dsimp only at h
      by_cases hfl : (tr.updateRun t (boxes.getD m.1 (0, fun _ => 0)).2).2 = true
      · rw [if_pos hfl] at h
        exact (ih _ _ _ h).trans (upd_keys _ _ _)
      · rw [if_neg hfl] at h
        simp only [Except.error.injEq] at h
        rw [← h]
        exact upd_keys _ _ _

theorem btErrs_mem {cutoff : ℚ} {boxes : List Det} {tracks : List (ℕ × Track 4)}
    {locs : List (ℕ × (Vec2 4 × Mat2 4))} {x : Triple}
    (h : x ∈ btErrs cutoff boxes tracks locs) :
    x.2.1 ∈ tracks.map Prod.fst ∧ x.1 < boxes.length := by
  simp only [btErrs, List.mem_flatMap] at h
  obtain ⟨kb, hkb, itrk, hitrk, hx⟩ := h
  cases hlk : locs.lookup itrk.1 with
  | none => rw [hlk] at hx; cases hx
  | some xP =>
    rw [hlk] at hx
    dsimp only at hx
    by_cases hc : kb.2.1 = itrk.2.l ∧ box_overlap (toBox kb.2.2) (headBox xP.1) < cutoff
    · rw [if_pos hc] at hx
      rcases List.mem_singleton.mp hx with rfl
      refine ⟨List.mem_map.mpr ⟨itrk, hitrk, rfl⟩, ?_⟩
      obtain ⟨k, det⟩ := kb
      obtain ⟨hlt, -⟩ := List.getElem?_eq_some.mp (List.mk_mem_enum_iff_getElem?.mp hkb)
      exact hlt
    · rw [if_neg hc] at hx
      cases hx

theorem btCreate_spec (t : ℚ) :
    ∀ (ens : List (ℕ × Det)) (mapper : List (ℕ × ℕ)) (st : St),
      ∃ new : List (ℕ × Track 4),
        (btCreate t ens mapper st).1.tracks = st.tracks ++ new ∧
        (btCreate t ens mapper st).1.nextid = st.nextid + new.length ∧
        new.map Prod.fst = List.range' st.nextid new.length ∧
        (∀ p ∈ new, p.2.t = t) ∧
        (btCreate t ens mapper st).1.timeout = st.timeout ∧
        (btCreate t ens mapper st).2.2 = new.map Prod.fst := by
  intro ens
  induction ens with
  | nil =>
    intro mapper st
    refine ⟨[], ?_, ?_, ?_, ?_, ?_, ?_⟩ <;> simp [btCreate]
  | cons kb rest ih =>
    intro mapper st
    cases hlk : mapper.lookup kb.1 with
    | some j =>
      obtain ⟨new, h1, h2, h3, h4, h5, h6⟩ := ih mapper st
      exact ⟨new, by simp only [btCreate, hlk]; exact h1,
        by simp only [btCreate, hlk]; exact h2, h3, h4,
        by simp only [btCreate, hlk]; exact h5,
        by simp only [btCreate, hlk]; exact h6⟩
    | none =>
      obtain ⟨new, h1, h2, h3, h4, h5, h6⟩ :=
        ih (mapper ++ [(kb.1, (st.add kb.2.1 t kb.2.2).1)]) (st.add kb.2.1 t kb.2.2).2
      have hA1 : (st.add kb.2.1 t kb.2.2).2.tracks =
          st.tracks ++ [(st.nextid, mkTrack st.kalman st.length kb.2.1 t kb.2.2)] := rfl
      have hA2 : (st.add kb.2.1 t kb.2.2).2.nextid = st.nextid + 1 := rfl
      have hA3 : (st.add kb.2.1 t kb.2.2).2.timeout = st.timeout := rfl
      refine ⟨(st.nextid, mkTrack st.kalman st.length kb.2.1 t kb.2.2) :: new,
        ?_, ?_, ?_, ?_, ?_, ?_⟩
      · simp only [btCreate, hlk]
        rw [h1, hA1, List.append_assoc]
        rfl
      · simp only [btCreate, hlk]
        rw [h2, hA2, List.length_cons]
        omega
      · rw [List.map_cons, h3, hA2, List.length_cons]
        rfl
      · intro p hp
        rcases List.mem_cons.mp hp with rfl | hp
        · rfl
        · exact h4 p hp
      · simp only [btCreate, hlk]
        rw [h5, hA3]
      · simp only [btCreate, hlk]
        rw [List.map_cons, h6, h3]
        rfl

theorem btCreate_nodup (t : ℚ) :
    ∀ (ens : List (ℕ × Det)) (mapper : List (ℕ × ℕ)) (st : St),
      (ens.map Prod.fst).Nodup →
      (mapper.map Prod.snd).Nodup →
      (∀ p ∈ mapper, p.2 < st.nextid) →
      (btCreate t ens mapper st).2.1.Nodup ∧
      ∀ j ∈ (btCreate t ens mapper st).2.1,
        (∃ k ∈ ens.map Prod.fst, mapper.lookup k = some j) ∨ st.nextid ≤ j := by
  intro ens
  induction ens with
  | nil =>
    intro mapper st _ _ _
    simp [btCreate]
  | cons kb rest ih =>
    intro mapper st hens hsnd hlt
    rw [List.map_cons, List.nodup_cons] at hens
    obtain ⟨hkmem, hens'⟩ := hens
    cases hlk : mapper.lookup kb.1 with
    | some j =>
      obtain ⟨ihn, ihc⟩ := ih mapper st hens' hsnd hlt
      constructor
      · simp only [btCreate, hlk]
        refine List.nodup_cons.mpr ⟨?_, ihn⟩
        intro hj
        rcases ihc j hj with ⟨k', hk', hlk'⟩ | hge
        · have e1 := mem_of_lookup hlk'
          have e2 := mem_of_lookup hlk
          have heq := List.inj_on_of_nodup_map hsnd e2 e1 rfl
          have hkk : kb.1 = k' := congrArg Prod.fst heq
          exact hkmem (hkk ▸ hk')
        · have := hlt _ (mem_of_lookup hlk)
          omega
      · intro j' hj'
        simp only [btCreate, hlk] at hj'
        rcases List.mem_cons.mp hj' with rfl | hj'
        · exact Or.inl ⟨kb.1, by simp, hlk⟩
        · rcases ihc j' hj' with ⟨k', hk', hlk'⟩ | hge
          · exact Or.inl ⟨k', by simp [hk'], hlk'⟩
          · exact Or.inr hge
    | none =>
      have hA2 : (st.add kb.2.1 t kb.2.2).2.nextid = st.nextid + 1 := rfl
      have hsnd' : ((mapper ++ [(kb.1, st.nextid)]).map Prod.snd).Nodup := by
        rw [List.map_append]
        refine List.Nodup.append hsnd (by simp) ?_
        intro a ha hb
        rcases List.mem_singleton.mp hb with rfl
        obtain ⟨p, hp, hpa⟩ := List.mem_map.mp ha
        have := hlt p hp
        omega
      have hlt' : ∀ p ∈ mapper ++ [(kb.1, st.nextid)],
          p.2 < (st.add kb.2.1 t kb.2.2).2.nextid := by
        intro p hp
        rw [hA2]
        rcases List.mem_append.mp hp with hp | hp
        · exact Nat.lt_succ_of_lt (hlt p hp)
        · rcases List.mem_singleton.mp hp with rfl
          exact Nat.lt_succ_self _
      obtain ⟨ihn, ihc⟩ :=
        ih (mapper ++ [(kb.1, (st.add kb.2.1 t kb.2.2).1)]) (st.add kb.2.1 t kb.2.2).2 hens'
          hsnd' hlt'
      have hsplit : ∀ k' j', k' ≠ kb.1 →
          (mapper ++ [(kb.1, st.nextid)]).lookup k' = some j' →
          mapper.lookup k' = some j' := by
        intro k' j' hkk hl
        rw [List.lookup_append] at hl
        cases hm : mapper.lookup k' with
        | some j0 =>
          rw [hm] at hl
          simpa using hl
        | none =>
          rw [hm] at hl
          simp only [Option.none_or] at hl
          have : (List.lookup k' [(kb.1, st.nextid)]) = none := by
            have hbeq : (k' == kb.1) = false := beq_eq_false_iff_ne.mpr hkk
            simp [List.lookup_cons, hbeq]
          rw [this] at hl
          cases hl
      have hA0 : (st.add kb.2.1 t kb.2.2).1 = st.nextid := rfl
      constructor
      · simp only [btCreate, hlk]
        refine List.nodup_cons.mpr ⟨?_, ihn⟩
        intro hj
        rcases ihc _ hj with ⟨k', hk', hlk'⟩ | hge
        · have hkk : k' ≠ kb.1 := fun hc => hkmem (hc ▸ hk')
          have hm := hsplit k' st.nextid hkk hlk'
          have hv := hlt _ (mem_of_lookup hm)
          omega
        · rw [hA2, hA0] at hge
          omega
      · intro j' hj'
        simp only [btCreate, hlk] at hj'
        rcases List.mem_cons.mp hj' with rfl | hj'
        · exact Or.inr le_rfl
        · rcases ihc _ hj' with ⟨k', hk', hlk'⟩ | hge
          · have hkk : k' ≠ kb.1 := fun hc => hkmem (hc ▸ hk')
            exact Or.inl ⟨k', by simp [hk'], hsplit k' j' hkk hlk'⟩
          · rw [hA2] at hge
            exact Or.inr (by omega)

theorem btPhase_ok_spec (st : St) (t : ℚ) (boxes : List Det)
    (r : St × List ℕ × List ℕ) (hInv : StInv st)
    (h : btPhase st t boxes = .ok r) :
    StInv r.1 ∧ r.1.timeout = st.timeout ∧ r.2.1.Nodup ∧
    (∀ j ∈ r.2.1, ∀ tr, (j, tr) ∈ r.1.tracks → tr.t = t) ∧
    ∃ len, r.2.2 = List.range' st.nextid len ∧ r.1.nextid = st.nextid + len := by
  simp only [btPhase] at h
  set final := greedyMatch (btErrs st.cutoff boxes st.tracks
    (st.tracks.map fun itrk => (itrk.1, itrk.2.predictTo t))) with hfinal
  have hfinal_errs : ∀ m ∈ final,
      m ∈ btErrs st.cutoff boxes st.tracks
        (st.tracks.map fun itrk => (itrk.1, itrk.2.predictTo t)) := by
    intro m hm
    rw [hfinal, greedyMatch_eq_gmatch] at hm
    exact gmatch_sub _ _ m hm
  have hpw : final.Pairwise fun a b => a.1 ≠ b.1 ∧ a.2.1 ≠ b.2.1 := by
    rw [hfinal, greedyMatch_eq_gmatch]
    exact gmatch_pairwise _ _
  cases happ : btApply t boxes final st.tracks [] with
  | error trP =>
    rw [happ] at h
    cases h
  | ok rr =>
    rw [happ] at h
    dsimp only at h
    simp only [Except.ok.injEq] at h
    obtain ⟨hkeys, hmap, hent⟩ := btApply_ok_spec t boxes final st.tracks [] rr happ
    rw [List.nil_append] at hmap
    obtain ⟨new, hc1, hc2, hc3, hc4, hc5, hc6⟩ :=
      btCreate_spec t boxes.enum rr.2 { st with tracks := rr.1 }
    have hsnd : (rr.2.map Prod.snd).Nodup := by
      rw [hmap, List.map_map]
      exact List.pairwise_map.mpr (hpw.imp fun hab => hab.2)
    have hjslt : ∀ p ∈ rr.2, p.2 < st.nextid := by
      intro p hp
      rw [hmap] at hp
      obtain ⟨m, hm, rfl⟩ := List.mem_map.mp hp
      obtain ⟨hmem, -⟩ := btErrs_mem (hfinal_errs m hm)
      obtain ⟨q, hq, hq1⟩ := List.mem_map.mp hmem
      exact hq1 ▸ hInv.1 q hq
    obtain ⟨hcn, hcc⟩ := btCreate_nodup t boxes.enum rr.2 { st with tracks := rr.1 }
      (List.nodup_enum_map_fst _) hsnd hjslt
    rw [show ({ st with tracks := rr.1 } : St).nextid = st.nextid from rfl] at hc2 hc3
    subst h
    have hrr_lt : ∀ p ∈ rr.1, p.1 < st.nextid := by
      intro p hp
      have : p.1 ∈ rr.1.map Prod.fst := List.mem_map.mpr ⟨p, hp, rfl⟩
      rw [hkeys] at this
      obtain ⟨q, hq, hq1⟩ := List.mem_map.mp this
      exact hq1 ▸ hInv.1 q hq
    refine ⟨⟨?_, ?_⟩, by rw [hc5], hcn, ?_, new.length, by rw [hc6, hc3], hc2⟩
    · -- every key is below the counter
      intro p hp
      rw [hc1] at hp
      rw [hc2]
      rcases List.mem_append.mp hp with hp | hp
      · have := hrr_lt p hp
        omega
      · have : p.1 ∈ new.map Prod.fst := List.mem_map.mpr ⟨p, hp, rfl⟩
        rw [hc3] at this
        have := List.mem_range'_1.mp this
        omega
    · -- keys pairwise distinct
      rw [hc1, List.map_append]
      refine List.Nodup.append ?_ ?_ ?_
      · rw [hkeys]; exact hInv.2
      · rw [hc3]; exact List.nodup_range' _ _
      · intro a ha hb
        rw [hkeys] at ha
        obtain ⟨q, hq, hq1⟩ := List.mem_map.mp ha
        rw [hc3] at hb
        have hblt := List.mem_range'_1.mp hb
        have := hInv.1 q hq
        omega
    · -- matched or created tracks carry timestamp t
      intro j hj tr htr
      rw [hc1] at htr
      rcases List.mem_append.mp htr with htr | htr
      · rcases hent _ htr with ⟨hmem, hnotjs⟩ | hstamp
        · exfalso
          rcases hcc j hj with ⟨k, -, hlkj⟩ | hge
          · have := mem_of_lookup hlkj
            rw [hmap] at this
            obtain ⟨m, hm, hpm⟩ := List.mem_map.mp this
            apply hnotjs
            refine List.mem_map.mpr ⟨m, hm, ?_⟩
            have hms := congrArg Prod.snd hpm
            simpa using hms
          · have : ({ st with tracks := rr.1 } : St).nextid = st.nextid := rfl
            rw [this] at hge
            have := hInv.1 _ hmem
            omega
        · exact hstamp
      · exact hc4 _ htr

/-- C9: within one successful `update(t, detections)` call, the returned
per-detection track-id sequence is pairwise distinct: matched tracks are
assigned to at most one detection each, and unmatched detections receive
fresh ids. -/
theorem frame_ids_nodup (st : St) (t : ℚ) (boxes : List Det)
    (r : St × List ℕ × List (ℕ × Track 4) × List ℕ) (hInv : StInv st)
    (h : btUpdate st t boxes = .ok r) : r.2.1.Nodup := by
  simp only [btUpdate] at h
  cases hph : btPhase st t boxes with
  | error stP => rw [hph] at h; cases h
  | ok r1 =>
    rw [hph] at h
    dsimp only at h
    simp only [Except.ok.injEq] at h
    have hspec := btPhase_ok_spec st t boxes r1 hInv hph
    rw [← h]
    exact hspec.2.2.1

/-- C4: eviction removes from the registry exactly the tracks whose
last-update timestamp satisfies `t > timestamp + timeout` at the end of
the matching/creation phase, returns them as the evicted set, and — since
eviction runs after matching and creation — for `timeout ≥ 0` no track id
returned for this frame is evicted by the same call. -/
theorem evict_spec (st : St) (t : ℚ) (boxes : List Det)
    (r1 : St × List ℕ × List ℕ)
    (r2 : St × List ℕ × List (ℕ × Track 4) × List ℕ)
    (hInv : StInv st)
    (h1 : btPhase st t boxes = .ok r1)
    (h2 : btUpdate st t boxes = .ok r2) :
    r2.2.2.1 = r1.1.tracks.filter (fun p => t > p.2.t + st.timeout) ∧
    r2.1.tracks = r1.1.tracks.filter (fun p => ¬ t > p.2.t + st.timeout) ∧
    r2.2.1 = r1.2.1 ∧
    (0 ≤ st.timeout → ∀ j ∈ r1.2.1, j ∉ r2.2.2.1.map Prod.fst) := by
  obtain ⟨-, hTO, -, hT, -⟩ := btPhase_ok_spec st t boxes r1 hInv h1
  simp only [btUpdate] at h2
  rw [h1] at h2
  dsimp only at h2
  simp only [Except.ok.injEq] at h2
  have hdone : r2.2.2.1 = r1.1.tracks.filter fun p => t > p.2.t + st.timeout := by
    rw [← h2]
    show (btEvict t r1.1).2 = _
    unfold btEvict
    rw [hTO]
  refine ⟨hdone, ?_, by rw [← h2], ?_⟩
  · rw [← h2]
    show (btEvict t r1.1).1.tracks = _
    unfold btEvict
    rw [hTO]
  · intro hto j hj hmem
    rw [hdone] at hmem
    obtain ⟨p, hp, hp1⟩ := List.mem_map.mp hmem
    rw [List.mem_filter] at hp
    obtain ⟨hptr, hpred⟩ := hp
    have hpt : p.2.t = t := by
      subst hp1
      exact hT _ hj p.2 hptr
    rw [hpt] at hpred
    simp only [decide_eq_true_eq] at hpred
    linarith

/-- Concrete evaluation: the `update(4, [])` call on `stOne` returns the
empty match list and evicts track `0` (whose last update was at `1`,
with timeout `2`). -/
theorem stOne_update_eval :
    btUpdate stOne 4 [] =
      .ok ({ stOne with tracks := [] }, [],
        [(0, mkTrack kalmanArgs 250 0 1 zBox)], []) := by
  have hph : btPhase stOne 4 [] = .ok (stOne, [], []) := rfl
  have ht : (mkTrack kalmanArgs 250 0 1 zBox).t = 1 := rfl
  simp only [btUpdate, hph]
  unfold btEvict
  simp only [stOne]
  norm_num [List.filter_cons, List.filter_nil, ht]

/-- Concrete evaluation: two detections on an empty registry create tracks
`0` and `1` and evict nothing. -/
theorem stEmpty_update_eval :
    btUpdate (mkBoxTracker 2 (1 / 5) 250) 5 [(0, zBox), (1, zBox)] =
      .ok ({ mkBoxTracker 2 (1 / 5) 250 with
          nextid := 2
          tracks := [(0, mkTrack kalmanArgs 250 0 5 zBox),
            (1, mkTrack kalmanArgs 250 1 5 zBox)] },
        [0, 1], [], [0, 1]) := by
  have hph : btPhase (mkBoxTracker 2 (1 / 5) 250) 5 [(0, zBox), (1, zBox)] =
      .ok ({ mkBoxTracker 2 (1 / 5) 250 with
          nextid := 2
          tracks := [(0, mkTrack kalmanArgs 250 0 5 zBox),
            (1, mkTrack kalmanArgs 250 1 5 zBox)] }, [0, 1], [0, 1]) := rfl
  have ht0 : (mkTrack kalmanArgs 250 0 5 zBox).t = 5 := rfl
  have ht1 : (mkTrack kalmanArgs 250 1 5 zBox).t = 5 := rfl
  simp only [btUpdate, hph]
  unfold btEvict
  simp only [mkBoxTracker]
  norm_num [List.filter_cons, List.filter_nil, ht0, ht1]

/-- Witness for C4: a registry with one stale track (last update at `1`,
timeout `2`) evicts exactly that track on an empty frame at `t = 4`. -/
theorem evict_spec_witness :
    StInv stOne ∧
    ([(0, mkTrack kalmanArgs 250 0 1 zBox)] : List (ℕ × Track 4)) =
      stOne.tracks.filter fun p => (4 : ℚ) > p.2.t + stOne.timeout :=
  ⟨by decide,
   (evict_spec stOne 4 [] (stOne, [], [])
      ({ stOne with tracks := [] }, [], [(0, mkTrack kalmanArgs 250 0 1 zBox)], [])
      (by decide) rfl stOne_update_eval).1⟩

/-- Witness for C9: two detections on an empty registry receive the
distinct fresh ids `[0, 1]`. -/
theorem frame_ids_nodup_witness :
    StInv (mkBoxTracker 2 (1 / 5) 250) ∧ ([0, 1] : List ℕ).Nodup :=
  ⟨by decide,
   frame_ids_nodup (mkBoxTracker 2 (1 / 5) 250) 5 [(0, zBox), (1, zBox)]
      ({ mkBoxTracker 2 (1 / 5) 250 with
          nextid := 2
          tracks := [(0, mkTrack kalmanArgs 250 0 5 zBox),
            (1, mkTrack kalmanArgs 250 1 5 zBox)] },
        [0, 1], [], [0, 1])
      (by decide) stEmpty_update_eval⟩

theorem btUpdate_error_spec (st : St) (t : ℚ) (boxes : List Det) (stP : St)
    (hInv : StInv st) (h : btUpdate st t boxes = .error stP) :
    StInv stP ∧ stP.nextid = st.nextid := by
  simp only [btUpdate] at h
  cases hph : btPhase st t boxes with
  | ok r1 =>
    rw [hph] at h
    dsimp only at h
    cases h
  | error st0 =>
    rw [hph] at h
    simp only [Except.error.injEq] at h
    subst h
    simp only [btPhase] at hph
    cases happ : btApply t boxes (greedyMatch (btErrs st.cutoff boxes st.tracks
        (st.tracks.map fun itrk => (itrk.1, itrk.2.predictTo t)))) st.tracks [] with
    | ok rr =>
      rw [happ] at hph
      dsimp only at hph
      cases hph
    | error trP =>
      rw [happ] at hph
      simp only [Except.error.injEq] at hph
      subst hph
      have hkeys := btApply_error_keys t boxes _ _ _ _ happ
      refine ⟨⟨?_, ?_⟩, rfl⟩
      · intro p hp
        have hmem : p.1 ∈ trP.map Prod.fst := List.mem_map.mpr ⟨p, hp, rfl⟩
        rw [hkeys] at hmem
        obtain ⟨q, hq, hq1⟩ := List.mem_map.mp hmem
        exact hq1 ▸ hInv.1 q hq
      · show (trP.map Prod.fst).Nodup
        rw [hkeys]
        exact hInv.2

theorem btUpdate_ok_spec (st : St) (t : ℚ) (boxes : List Det)
    (r : St × List ℕ × List (ℕ × Track 4) × List ℕ)
    (hInv : StInv st) (h : btUpdate st t boxes = .ok r) :
    StInv r.1 ∧
    ∃ len, r.2.2.2 = List.range' st.nextid len ∧ r.1.nextid = st.nextid + len := by
  simp only [btUpdate] at h
  cases hph : btPhase st t boxes with
  | error stP =>
    rw [hph] at h
    cases h
  | ok r1 =>
    rw [hph] at h
    dsimp only at h
    simp only [Except.ok.injEq] at h
    obtain ⟨hInv1, -, -, -, len, hcr, hnext⟩ := btPhase_ok_spec st t boxes r1 hInv hph
    subst h
    refine ⟨⟨?_, ?_⟩, len, hcr, hnext⟩
    · intro p hp
      have hp1 : p ∈ r1.1.tracks := List.mem_of_mem_filter hp
      exact hInv1.1 p hp1
    · show ((r1.1.tracks.filter _).map Prod.fst).Nodup
      exact hInv1.2.sublist (List.Sublist.map _ (List.filter_sublist _))

theorem stepOp_spec (st : St) (op : Op) (hInv : StInv st) :
    StInv (stepOp st op).1 ∧ st.nextid ≤ (stepOp st op).1.nextid ∧
    (stepOp st op).2.Pairwise (· < ·) ∧
    ∀ c ∈ (stepOp st op).2, st.nextid ≤ c ∧ c < (stepOp st op).1.nextid := by
  cases op with
  | add l t z =>
    simp only [stepOp]
    refine ⟨⟨?_, ?_⟩, Nat.le_succ _, by simp, ?_⟩
    · intro p hp
      rcases List.mem_append.mp hp with hp | hp
      · exact Nat.lt_succ_of_lt (hInv.1 p hp)
      · rcases List.mem_singleton.mp hp with rfl
        exact Nat.lt_succ_self _
    · show ((st.tracks ++ [(st.nextid, _)]).map Prod.fst).Nodup
      rw [List.map_append]
      refine List.Nodup.append hInv.2 (by simp) ?_
      intro a ha hb
      rcases List.mem_singleton.mp (by simpa using hb) with rfl
      obtain ⟨q, hq, hq1⟩ := List.mem_map.mp ha
      exact absurd (hq1 ▸ hInv.1 q hq) (lt_irrefl _)
    · intro c hc
      rcases List.mem_singleton.mp hc with rfl
      exact ⟨le_rfl, Nat.lt_succ_self _⟩
  | pop i =>
    simp only [stepOp]
    cases hpp : st.pop i with
    | none => exact ⟨hInv, le_rfl, by simp, by simp⟩
    | some r =>
      simp only [St.pop] at hpp
      cases hlk : st.tracks.lookup i with
      | none => rw [hlk] at hpp; cases hpp
      | some tr =>
        rw [hlk] at hpp
        simp only [Option.some.injEq] at hpp
        subst hpp
        refine ⟨⟨?_, ?_⟩, le_rfl, by simp, by simp⟩
        · intro p hp
          exact hInv.1 p (List.mem_of_mem_filter hp)
        · show ((st.tracks.filter _).map Prod.fst).Nodup
          exact hInv.2.sublist (List.Sublist.map _ (List.filter_sublist _))
  | update t boxes =>
    simp only [stepOp]
    cases hupd : btUpdate st t boxes with
    | error stP =>
      dsimp only
      obtain ⟨h1, h2⟩ := btUpdate_error_spec st t boxes stP hInv hupd
      exact ⟨h1, le_of_eq h2.symm, by simp, by simp⟩
    | ok r =>
      dsimp only
      obtain ⟨h1, len, hcr, hnext⟩ := btUpdate_ok_spec st t boxes r hInv hupd
      refine ⟨h1, by omega, ?_, ?_⟩
      · show List.Pairwise (· < ·) r.2.2.2
        rw [hcr]
        exact List.pairwise_lt_range' _ _
      · intro c hc
        rw [hcr] at hc
        have hcb := List.mem_range'_1.mp hc
        exact ⟨by omega, by omega⟩

theorem runOps_spec (ops : List Op) :
    ∀ st, StInv st →
      StInv (runOps st ops).1 ∧ st.nextid ≤ (runOps st ops).1.nextid ∧
      (runOps st ops).2.Pairwise (· < ·) ∧
      ∀ c ∈ (runOps st ops).2, st.nextid ≤ c ∧ c < (runOps st ops).1.nextid := by
  induction ops with
  | nil =>
    intro st hInv
    exact ⟨hInv, le_rfl, by simp [runOps], by simp [runOps]⟩
  | cons op ops ih =>
    intro st hInv
    obtain ⟨h1, h2, h3, h4⟩ := stepOp_spec st op hInv
    obtain ⟨g1, g2, g3, g4⟩ := ih _ h1
    refine ⟨g1, le_trans h2 g2, ?_, ?_⟩
    · show ((stepOp st op).2 ++ (runOps (stepOp st op).1 ops).2).Pairwise (· < ·)
      rw [List.pairwise_append]
      exact ⟨h3, g3, fun a ha b hb => lt_of_lt_of_le (h4 a ha).2 (g4 b hb).1⟩
    · intro c hc
      rcases List.mem_append.mp hc with hc | hc
      · exact ⟨(h4 c hc).1, lt_of_lt_of_le (h4 c hc).2 g2⟩
      · exact ⟨le_trans h2 (g4 c hc).1, (g4 c hc).2⟩

/-- C5: `add` returns the current counter value and increments the counter;
along any sequence of registry operations the counter never decreases, and
the identifiers assigned to created tracks are strictly increasing over the
whole trace — so an id is never reused after its track is evicted or
removed. -/
theorem ids_strictly_increasing (st : St) (ops : List Op)
    (l : ℕ) (t : ℚ) (z : Vec 4) (hInv : StInv st) :
    (st.add l t z).1 = st.nextid ∧
    (st.add l t z).2.nextid = st.nextid + 1 ∧
    st.nextid ≤ (runOps st ops).1.nextid ∧
    (runOps st ops).2.Pairwise (· < ·) ∧
    ∀ c ∈ (runOps st ops).2, st.nextid ≤ c := by
  obtain ⟨-, h2, h3, h4⟩ := runOps_spec ops st hInv
  exact ⟨rfl, rfl, h2, h3, fun c hc => (h4 c hc).1⟩

/-- Witness for C5 on a fresh registry and a small operation trace. -/
theorem ids_strictly_increasing_witness :
    StInv (mkBoxTracker 2 (1 / 5) 250) ∧
    ((mkBoxTracker 2 (1 / 5) 250).add 0 0 zBox).1 = 0 ∧
    (runOps (mkBoxTracker 2 (1 / 5) 250)
      [.add 0 0 zBox, .add 1 0 zBox, .pop 0, .add 0 1 zBox]).2.Pairwise (· < ·) :=
  ⟨by decide,
   (ids_strictly_increasing (mkBoxTracker 2 (1 / 5) 250)
      [.add 0 0 zBox, .add 1 0 zBox, .pop 0, .add 0 1 zBox] 0 0 zBox (by decide)).1,
   (ids_strictly_increasing (mkBoxTracker 2 (1 / 5) 250)
      [.add 0 0 zBox, .add 1 0 zBox, .pop 0, .add 0 1 zBox] 0 0 zBox (by decide)).2.2.2.1⟩

end Registry

end WarOnCars
